import Mathlib

/-! Overview.
Shallow embedding of `gemini-translate.py`, a resumable batch CSV
translation pipeline, together with proofs of its specified properties.

The embedding models:
* `clean_text` — the text normalizer (`text.replace` + `' '.join(text.split())`);
* `translate` — the remote-call wrapper, parametrized by the remote outcome;
* `runFrom` / `run` — the batch loop of `main` over a row-index list, with a
  ghost trace (visited indices, remote calls made, append events) so that
  statements such as "no further remote call is made" are directly statable;
* `bootstrap` — the progress-store startup logic on the output file.

`sys.exit(1)` in the source is modelled by the `RunResult.fatal` terminal
state (a non-zero process exit); per-row CSV append failures are modelled by
an `appendOk` oracle indexed by row index.
-/

namespace GT

/-- The ASCII whitespace characters recognised by Python's `str.split()` /
`str.strip()` (space, tab, newline, carriage return, vertical tab, form feed). -/
def isPySpace (c : Char) : Bool :=
  c = ' ' || c = '\t' || c = '\n' || c = '\r' || c = '\x0b' || c = '\x0c'

/-- One-character action of `text.replace('\r', ' ').replace('\n', ' ')`
(source line 18). -/
def replaceNl (c : Char) : Char :=
  if c = '\r' || c = '\n' then ' ' else c

/-- Accumulator worker for Python's `str.split()`: splits a character list
into its maximal whitespace-free fragments. -/
def wordsAux : List Char → List Char → List (List Char)
  | [], acc => if acc = [] then [] else [acc.reverse]
  | c :: cs, acc =>
    if isPySpace c then
      if acc = [] then wordsAux cs []
      else acc.reverse :: wordsAux cs []
    else wordsAux cs (c :: acc)

/-- Python's `text.split()` (no separator argument): the list of maximal
whitespace-free fragments of `l`, dropping all whitespace. -/
def pyWords (l : List Char) : List (List Char) := wordsAux l []

/-- Python's `' '.join(tokens)`: interleave a single space between tokens. -/
def joinSp : List (List Char) → List Char
  | [] => []
  | [t] => t
  | t :: ts => t ++ ' ' :: joinSp ts

/-- Drop leading whitespace. -/
def leftTrim (l : List Char) : List Char := l.dropWhile isPySpace

/-- Drop trailing whitespace. -/
def rightTrim (l : List Char) : List Char := (l.reverse.dropWhile isPySpace).reverse

/-- Drop leading and trailing whitespace. -/
def trimWs (l : List Char) : List Char := rightTrim (leftTrim l)

/-- Python's `s.strip()` (source line 32). -/
def pyStrip (s : String) : String := String.mk (trimWs s.data)

/-- Source `clean_text` (lines 12-19): `if not text: return text`, then
replace `'\r'` and `'\n'` by spaces and return `' '.join(text.split())`. -/
def clean_text (s : String) : String :=
  if s = "" then s
  else String.mk (joinSp (pyWords (s.data.map replaceNl)))

/-- Spec-side description of one collapse pass: every maximal run of
whitespace becomes a single space (comparison definition for the spec's
words "collapses any run of whitespace to a single space"). -/
def collapseWs : List Char → List Char
  | [] => []
  | [c] => [if isPySpace c then ' ' else c]
  | c :: c' :: cs =>
    if isPySpace c && isPySpace c' then collapseWs (c' :: cs)
    else (if isPySpace c then ' ' else c) :: collapseWs (c' :: cs)

/-- Spec-side normalizer, following the spec's words: "Replaces carriage
returns and line feeds with single spaces, then collapses any run of
whitespace to a single space and trims leading/trailing whitespace."
Comparison definition for the refinement claim about `clean_text`. -/
def normalizeSpec (s : String) : String :=
  String.mk (trimWs (collapseWs (s.data.map replaceNl)))

/-- Is `pat` a leading fragment of the second list? (helper for Python's
substring test `pat in s`). -/
def isPrefixChars : List Char → List Char → Bool
  | [], _ => true
  | _ :: _, [] => false
  | a :: as, b :: bs => a = b && isPrefixChars as bs

/-- Does `pat` occur contiguously in the list? -/
def listContains (pat : List Char) : List Char → Bool
  | [] => pat.isEmpty
  | c :: cs => isPrefixChars pat (c :: cs) || listContains pat cs

/-- Python's substring test `pat in s`. -/
def containsSub (pat s : String) : Bool := listContains pat.data s.data

/-- The quota classification of source line 41:
`"RESOURCE_EXHAUSTED" in str(e) or "429" in str(e)`. -/
def isQuotaMsg (msg : String) : Bool :=
  containsSub "RESOURCE_EXHAUSTED" msg || containsSub "429" msg

/-- Outcome of one remote `generate_content` call: success carries the raw
response text and the optional `usage_metadata` token count (`none` models a
response object without the `usage_metadata` attribute); `error` carries the
exception's string rendering. -/
inductive RemoteOutcome where
  | success (text : String) (usage : Option Nat)
  | error (msg : String)
deriving DecidableEq

/-- Fatal terminations of `translate` (both branches call `sys.exit(1)`):
the quota branch (RESOURCE_EXHAUSTED / 429) and the generic branch. -/
inductive Fatal where
  | quota
  | generic (msg : String)
deriving DecidableEq

/-- Source `translate` (lines 21-49), parametrized by the remote outcome.
On success the source computes `response.text.strip()` and then applies
`clean_text`, and reports `usage_metadata.total_token_count` when the
attribute exists, `0` otherwise; on exception it exits the process,
distinguishing the quota message from the generic one. -/
def translate (r : RemoteOutcome) : Except Fatal (String × Nat) :=
  match r with
  | .success text usage => .ok (clean_text (pyStrip text), usage.getD 0)
  | .error msg => if isQuotaMsg msg then .error .quota else .error (.generic msg)

/-- Token count reported for a remote outcome (0 when `usage_metadata` is
missing, matching source lines 34-38). -/
def tokenOf : RemoteOutcome → Nat
  | .success _ u => u.getD 0
  | .error _ => 0

/-- Does `translate` print the non-fatal warning of source line 38
("usage_metadata not found in response")? -/
def usageWarned : RemoteOutcome → Bool
  | .success _ none => true
  | _ => false

/-- One row of the input CSV: columns `context` (source text) and `ids`
(row identifier), the two columns `main` reads (lines 117, 137-138). -/
structure SourceRow where
  context : String
  ids : String
deriving DecidableEq

/-- One data row of the output CSV, in the column order
`context, id, context_my` written at lines 100 and 136-140. -/
structure OutRow where
  context : String
  id : String
  context_my : String
deriving DecidableEq

/-- State of one invocation of the batch loop. `output` is the data-row
content of the output sink. `visited`, `calls` and `appends` are ghost
traces: the loop indices iterated, the indices on which a remote call was
made, and the indices whose row append succeeded. The three counters are
`processed_count`, `skipped_count` and `total_token_usage`. -/
structure RunState where
  output : List OutRow
  visited : List Nat
  calls : List Nat
  appends : List Nat
  processed : Nat
  skipped : Nat
  tokens : Nat
deriving DecidableEq

/-- Terminal state of a run: the loop exhausted its index list, or the
process exited via `sys.exit(1)` inside `translate` (non-zero exit status). -/
inductive RunResult where
  | finished (st : RunState)
  | fatal (e : Fatal) (st : RunState)
deriving DecidableEq

/-- The run state at termination, for either terminal. -/
def resultState : RunResult → RunState
  | .finished st => st
  | .fatal _ st => st

/-- Row lookup `df.iloc[index]`; the loop only evaluates it at indices below
`len(df)`, so the default row is never produced in the theorems. -/
def dfRow (df : List SourceRow) (i : Nat) : SourceRow := df.getD i ⟨"", ""⟩

/-- State change for a skipped row (source lines 119-121): record the loop
iteration and increment `skipped_count`; nothing else is touched. -/
def skipUpd (st : RunState) (i : Nat) : RunState :=
  { st with visited := st.visited ++ [i], skipped := st.skipped + 1 }

/-- State change for a successful remote call on row `i` (source lines
125-127): record the iteration and the call, increment `processed_count`
and add the row's token usage — all before the append is attempted. -/
def callUpd (st : RunState) (i : Nat) (tok : Nat) : RunState :=
  { st with visited := st.visited ++ [i], calls := st.calls ++ [i],
            processed := st.processed + 1, tokens := st.tokens + tok }

/-- State change for a successful append of one output row (source lines
134-140). -/
def appendUpd (st : RunState) (i : Nat) (row : OutRow) : RunState :=
  { st with output := st.output ++ [row], appends := st.appends ++ [i] }

/-- State at the `sys.exit(1)` inside `translate`: the iteration and the
remote call for row `i` happened; no append, no counter change. -/
def fatalUpd (st : RunState) (i : Nat) : RunState :=
  { st with visited := st.visited ++ [i], calls := st.calls ++ [i] }

/-- The batch loop of `main` (source lines 115-144) over an explicit index
list. `K` is `translated_ids`, the completed-keys set loaded at bootstrap —
the source never mutates it during the loop. `remote i` is the outcome of
the remote call for row `i`; `appendOk i` tells whether the CSV append for
row `i` succeeds (a failed append is logged and the loop continues,
lines 143-144). `processed_count` and `total_token_usage` are incremented
before the append is attempted (lines 126-127). -/
def runFrom (df : List SourceRow) (K : List String) (remote : Nat → RemoteOutcome)
    (appendOk : Nat → Bool) : List Nat → RunState → RunResult
  | [], st => .finished st
  | i :: rest, st =>
    let row := dfRow df i
    if row.context ∈ K then
      runFrom df K remote appendOk rest (skipUpd st i)
    else
      match translate (remote i) with
      | .error e => .fatal e (fatalUpd st i)
      | .ok (tr, tok) =>
        if appendOk i then
          runFrom df K remote appendOk rest
            (appendUpd (callUpd st i tok) i ⟨row.context, row.ids, tr⟩)
        else
          runFrom df K remote appendOk rest (callUpd st i tok)

/-- The effective row range `[start, min(end, totalRows))` of source lines
107-115, as the list of its indices in increasing order; `end` defaults to
`totalRows` when absent (line 108). -/
def effRange (start : Nat) (endOpt : Option Nat) (total : Nat) : List Nat :=
  List.range' start (min (endOpt.getD total) total - start)

/-- The loop state at entry: sink content as loaded, empty traces,
all counters zero (source lines 111-113). -/
def initState (rows : List OutRow) : RunState := ⟨rows, [], [], [], 0, 0, 0⟩

/-- One full invocation of the batch loop: iterate the effective range from
the initial state. `K` is the completed-keys set and `rows` the data rows
already present in the sink when the run starts. -/
def run (df : List SourceRow) (K : List String) (remote : Nat → RemoteOutcome)
    (appendOk : Nat → Bool) (start : Nat) (endOpt : Option Nat)
    (rows : List OutRow) : RunResult :=
  runFrom df K remote appendOk (effRange start endOpt df.length) (initState rows)

/-- The contexts (source texts) of a list of output rows; `K` for a run
resumed over that sink is exactly this list (source line 89:
`set(translated_df['context'])`, membership being what the loop tests). -/
def keysOf (rows : List OutRow) : List String := rows.map (·.context)

/-- Condition of the output file on disk at startup: absent (with creation
succeeding or not), readable with a `context` column, or unreadable /
malformed. -/
inductive SinkState where
  | absent (createOk : Bool)
  | readable (rows : List OutRow)
  | malformed

/-- Result of the progress-store bootstrap: the completed-keys set, and the
header row written when a fresh file was created. -/
structure BootResult where
  completed : List String
  createdHeader : Option (List String)
deriving DecidableEq

/-- The header row written on creation of a fresh output file
(source line 100). -/
def outHeader : List String := ["context", "id", "context_my"]

/-- The bootstrap of source lines 86-105: an existing readable file yields
the set of values of its `context` column; an existing unreadable file is
logged and yields the empty set (the run proceeds); an absent file is
created with the three-column header (empty set), and a creation failure is
fatal (`sys.exit(1)`, modelled by `Except.error`). -/
def bootstrap : SinkState → Except Unit BootResult
  | .readable rows => .ok ⟨keysOf rows, none⟩
  | .malformed => .ok ⟨[], none⟩
  | .absent true => .ok ⟨[], some outHeader⟩
  | .absent false => .error ()

/-- Negation of `isPySpace`, the predicate delimiting split fragments. -/
def notSpace (c : Char) : Bool := !(isPySpace c)

/-- A character list containing no whitespace at all. -/
def wsFree (t : List Char) : Prop := ∀ c ∈ t, isPySpace c = false

/-- The source text at row `i` of the input table (`row['context']`). -/
def ctxAt (df : List SourceRow) (i : Nat) : String := (dfRow df i).context

/-! Lemmas on the text normalizer -/

theorem dropWhile_cons_false {p : Char → Bool} {c : Char} {l : List Char}
    (h : p c = false) : (c :: l).dropWhile p = c :: l := by
  simp [List.dropWhile_cons, h]

theorem dropWhile_append_ne {p : Char → Bool} (a b : List Char)
    (h : a.dropWhile p ≠ []) : (a ++ b).dropWhile p = a.dropWhile p ++ b := by
  induction a with
  | nil => exact absurd rfl h
  | cons c a' ih =>
    by_cases hc : p c
    · have hc' : p c = true := by simpa using hc
      simp only [List.cons_append, List.dropWhile_cons, hc', if_true]
      exact ih (by simpa [List.dropWhile_cons, hc'] using h)
    · have hc' : p c = false := by simpa using hc
      simp [List.dropWhile_cons, hc']

theorem dropWhile_append_nil {p : Char → Bool} (a b : List Char)
    (h : a.dropWhile p = []) : (a ++ b).dropWhile p = b.dropWhile p := by
  induction a with
  | nil => rfl
  | cons c a' ih =>
    by_cases hc : p c
    · have hc' : p c = true := by simpa using hc
      simp only [List.cons_append, List.dropWhile_cons, hc', if_true]
      exact ih (by simpa [List.dropWhile_cons, hc'] using h)
    · have hc' : p c = false := by simpa using hc
      simp [List.dropWhile_cons, hc'] at h

theorem dropWhile_head_false {p : Char → Bool} {l r : List Char} {c : Char}
    (h : l.dropWhile p = c :: r) : p c = false := by
  induction l with
  | nil => simp at h
  | cons a l' ih =>
    by_cases ha : p a
    · have ha' : p a = true := by simpa using ha
      exact ih (by simpa [List.dropWhile_cons, ha'] using h)
    · have ha' : p a = false := by simpa using ha
      rw [dropWhile_cons_false ha'] at h
      cases h
      exact ha'

theorem dropWhile_wsFree_eq {t : List Char} (ht : wsFree t) :
    t.dropWhile isPySpace = t := by
  cases t with
  | nil => rfl
  | cons c t' => exact dropWhile_cons_false (ht c (by simp))

theorem wsFree_reverse {t : List Char} (ht : wsFree t) : wsFree t.reverse := by
  intro c hc
  exact ht c (List.mem_reverse.mp hc)

theorem rightTrim_append_wsFree {t : List Char} (x : List Char) (ht : wsFree t) :
    rightTrim (t ++ x) = t ++ rightTrim x := by
  unfold rightTrim
  rw [List.reverse_append]
  have h2 : (t.reverse).dropWhile isPySpace = t.reverse :=
    dropWhile_wsFree_eq (wsFree_reverse ht)
  by_cases hx : x.reverse.dropWhile isPySpace = []
  · rw [dropWhile_append_nil _ _ hx, h2, hx]
    simp
  · rw [dropWhile_append_ne _ _ hx, List.reverse_append, List.reverse_reverse]

theorem rightTrim_space_cons_of_nil {y : List Char} (h : rightTrim y = []) :
    rightTrim (' ' :: y) = [] := by
  have h' : y.reverse.dropWhile isPySpace = [] := by
    have := congrArg List.reverse h
    simpa [rightTrim] using this
  unfold rightTrim
  have : (' ' :: y).reverse = y.reverse ++ [' '] := by simp
  rw [this, dropWhile_append_nil _ _ h']
  rfl

theorem rightTrim_space_cons_of_ne {y : List Char} (h : rightTrim y ≠ []) :
    rightTrim (' ' :: y) = ' ' :: rightTrim y := by
  have h' : y.reverse.dropWhile isPySpace ≠ [] := by
    intro hc
    exact h (by simp [rightTrim, hc])
  unfold rightTrim
  have hrev : (' ' :: y).reverse = y.reverse ++ [' '] := by simp
  rw [hrev, dropWhile_append_ne _ _ h', List.reverse_append]
  rfl

theorem collapseWs_cons_false {c : Char} {cs : List Char} (h : isPySpace c = false) :
    collapseWs (c :: cs) = c :: collapseWs cs := by
  cases cs with
  | nil => simp [collapseWs, h]
  | cons c' cs' => simp [collapseWs, h]

theorem collapseWs_cons_true {cs : List Char} :
    ∀ {c : Char}, isPySpace c = true →
      collapseWs (c :: cs) = ' ' :: collapseWs (cs.dropWhile isPySpace) := by
  induction cs with
  | nil => intro c h; simp [collapseWs, h]
  | cons c' cs' ih =>
    intro c h
    by_cases h' : isPySpace c'
    · have h'' : isPySpace c' = true := by simpa using h'
      have : collapseWs (c :: c' :: cs') = collapseWs (c' :: cs') := by
        simp [collapseWs, h, h'']
      rw [this, ih h'', List.dropWhile_cons, h'']
      simp
    · have h'' : isPySpace c' = false := by simpa using h'
      have : collapseWs (c :: c' :: cs') = ' ' :: collapseWs (c' :: cs') := by
        simp [collapseWs, h, h'']
      rw [this, dropWhile_cons_false h'']

theorem collapseWs_append_wsFree {t : List Char} (r : List Char) (ht : wsFree t) :
    collapseWs (t ++ r) = t ++ collapseWs r := by
  induction t with
  | nil => rfl
  | cons c t' ih =>
    have hc : isPySpace c = false := ht c (by simp)
    have ht' : wsFree t' := fun x hx => ht x (by simp [hx])
    simp only [List.cons_append]
    rw [collapseWs_cons_false hc, ih ht']

theorem pyWords_cons_true {c : Char} {cs : List Char} (h : isPySpace c = true) :
    pyWords (c :: cs) = pyWords cs := by
  simp [pyWords, wordsAux, h]

theorem pyWords_dropWhile (l : List Char) :
    pyWords (l.dropWhile isPySpace) = pyWords l := by
  induction l with
  | nil => rfl
  | cons c cs ih =>
    by_cases h : isPySpace c
    · have h' : isPySpace c = true := by simpa using h
      rw [List.dropWhile_cons, if_pos (by simpa using h'), ih, pyWords_cons_true h']
    · have h' : isPySpace c = false := by simpa using h
      rw [dropWhile_cons_false h']

theorem wordsAux_acc (cs : List Char) :
    ∀ (a : Char) (acc : List Char),
      wordsAux cs (a :: acc) =
        ((a :: acc).reverse ++ cs.takeWhile notSpace) :: pyWords (cs.dropWhile notSpace) := by
  induction cs with
  | nil => intro a acc; simp [wordsAux, pyWords]
  | cons c' cs' ih =>
    intro a acc
    by_cases h : isPySpace c'
    · have h' : isPySpace c' = true := by simpa using h
      have hns : notSpace c' = false := by simp [notSpace, h']
      have : wordsAux (c' :: cs') (a :: acc) = (a :: acc).reverse :: wordsAux cs' [] := by
        simp [wordsAux, h']
      rw [this]
      have h1 : List.takeWhile notSpace (c' :: cs') = [] := by
        simp [List.takeWhile_cons, hns]
      have h2 : List.dropWhile notSpace (c' :: cs') = c' :: cs' := dropWhile_cons_false hns
      rw [h1, h2, pyWords_cons_true h']
      simp [pyWords]
    · have h' : isPySpace c' = false := by simpa using h
      have hns : notSpace c' = true := by simp [notSpace, h']
      have : wordsAux (c' :: cs') (a :: acc) = wordsAux cs' (c' :: a :: acc) := by
        simp [wordsAux, h']
      rw [this, ih c' (a :: acc)]
      simp [List.takeWhile_cons, List.dropWhile_cons, hns]

theorem pyWords_cons_false {c : Char} {cs : List Char} (h : isPySpace c = false) :
    pyWords (c :: cs) =
      (c :: cs.takeWhile notSpace) :: pyWords (cs.dropWhile notSpace) := by
  have : pyWords (c :: cs) = wordsAux cs [c] := by
    simp [pyWords, wordsAux, h]
  rw [this, wordsAux_acc cs c []]
  rfl

theorem wordsAux_good (l : List Char) :
    ∀ acc, wsFree acc → ∀ u ∈ wordsAux l acc, u ≠ [] ∧ wsFree u := by
  induction l with
  | nil =>
    intro acc hacc u hu
    cases acc with
    | nil => simp [wordsAux] at hu
    | cons a acc' =>
      simp [wordsAux] at hu
      subst hu
      have hfree : wsFree ((a :: acc').reverse) := wsFree_reverse hacc
      rw [List.reverse_cons] at hfree
      exact ⟨by simp, hfree⟩
  | cons c cs ih =>
    intro acc hacc u hu
    by_cases h : isPySpace c
    · have h' : isPySpace c = true := by simpa using h
      cases acc with
      | nil =>
        rw [show wordsAux (c :: cs) [] = wordsAux cs [] by simp [wordsAux, h']] at hu
        exact ih [] (by intro x hx; simp at hx) u hu
      | cons a acc' =>
        rw [show wordsAux (c :: cs) (a :: acc') = (a :: acc').reverse :: wordsAux cs [] by
          simp [wordsAux, h']] at hu
        rcases List.mem_cons.mp hu with h1 | h2
        · subst h1
          exact ⟨by simp, wsFree_reverse hacc⟩
        · exact ih [] (by intro x hx; simp at hx) u h2
    · have h' : isPySpace c = false := by simpa using h
      rw [show wordsAux (c :: cs) acc = wordsAux cs (c :: acc) by simp [wordsAux, h']] at hu
      have : wsFree (c :: acc) := by
        intro x hx
        rcases List.mem_cons.mp hx with h1 | h2
        · subst h1; exact h'
        · exact hacc x h2
      exact ih (c :: acc) this u hu

theorem pyWords_good (l : List Char) : ∀ u ∈ pyWords l, u ≠ [] ∧ wsFree u :=
  wordsAux_good l [] (by intro x hx; simp at hx)

theorem joinSp_cons (t t' : List Char) (ts : List (List Char)) :
    joinSp (t :: t' :: ts) = t ++ ' ' :: joinSp (t' :: ts) := rfl

theorem joinSp_ne_nil {ts : List (List Char)} (h : ts ≠ [])
    (htok : ∀ t ∈ ts, t ≠ []) : joinSp ts ≠ [] := by
  cases ts with
  | nil => exact absurd rfl h
  | cons t ts' =>
    cases ts' with
    | nil => exact htok t (by simp)
    | cons t' ts'' =>
      rw [joinSp_cons]
      simp

theorem wordsAux_token {t : List Char} (ht : wsFree t) :
    ∀ (r acc : List Char), wordsAux (t ++ r) acc = wordsAux r (t.reverse ++ acc) := by
  induction t with
  | nil => intro r acc; rfl
  | cons c t' ih =>
    intro r acc
    have hc : isPySpace c = false := ht c (by simp)
    have ht' : wsFree t' := fun x hx => ht x (by simp [hx])
    have : wordsAux (c :: (t' ++ r)) acc = wordsAux (t' ++ r) (c :: acc) := by
      simp [wordsAux, hc]
    simp only [List.cons_append]
    rw [this, ih ht' r (c :: acc)]
    simp

theorem pyWords_joinSp (ts : List (List Char))
    (h : ∀ t ∈ ts, t ≠ [] ∧ wsFree t) : pyWords (joinSp ts) = ts := by
  induction ts with
  | nil => rfl
  | cons t ts' ih =>
    have htne : t ≠ [] := (h t (by simp)).1
    have htfree : wsFree t := (h t (by simp)).2
    cases ts' with
    | nil =>
      show pyWords t = [t]
      have : pyWords t = wordsAux (t ++ []) [] := by simp [pyWords]
      rw [this, wordsAux_token htfree [] []]
      have hrev : t.reverse ≠ [] := by simpa using htne
      simp [wordsAux, hrev]
    | cons t' ts'' =>
      rw [joinSp_cons]
      have : pyWords (t ++ ' ' :: joinSp (t' :: ts'')) =
          wordsAux (' ' :: joinSp (t' :: ts'')) t.reverse := by
        have := wordsAux_token htfree (' ' :: joinSp (t' :: ts'')) []
        simpa [pyWords] using this
      rw [this]
      have hsp : isPySpace ' ' = true := rfl
      have hrev : t.reverse ≠ [] := by simpa using htne
      have : wordsAux (' ' :: joinSp (t' :: ts'')) t.reverse =
          t.reverse.reverse :: wordsAux (joinSp (t' :: ts'')) [] := by
        cases htr : t.reverse with
        | nil => exact absurd htr hrev
        | cons a as => simp [wordsAux, hsp]
      rw [this, List.reverse_reverse]
      have := ih (fun u hu => h u (by simp [hu]))
      rw [show wordsAux (joinSp (t' :: ts'')) [] = pyWords (joinSp (t' :: ts'')) from rfl, this]

theorem replaceNl_of_false {c : Char} (h : isPySpace c = false) : replaceNl c = c := by
  simp only [isPySpace, Bool.or_eq_false_iff, decide_eq_false_iff_not] at h
  have hr : ¬ c = '\x0d' := h.1.1.2
  have hn : ¬ c = '\n' := h.1.1.1.2
  simp [replaceNl, hr, hn]

theorem map_replaceNl_wsFree {t : List Char} (ht : wsFree t) :
    t.map replaceNl = t := by
  induction t with
  | nil => rfl
  | cons c t' ih =>
    have hc : isPySpace c = false := ht c (by simp)
    have ht' : wsFree t' := fun x hx => ht x (by simp [hx])
    simp [replaceNl_of_false hc, ih ht']

theorem map_replaceNl_joinSp (ts : List (List Char))
    (h : ∀ t ∈ ts, wsFree t) : (joinSp ts).map replaceNl = joinSp ts := by
  induction ts with
  | nil => rfl
  | cons t ts' ih =>
    have htfree : wsFree t := h t (by simp)
    cases ts' with
    | nil => exact map_replaceNl_wsFree htfree
    | cons t' ts'' =>
      rw [joinSp_cons]
      have hsp : replaceNl ' ' = ' ' := rfl
      have := ih (fun u hu => h u (by simp [hu]))
      simp only [List.map_append, List.map_cons]
      rw [map_replaceNl_wsFree htfree, hsp, this]

theorem clean_text_eq_of_ne {s : String} (h : ¬ s = "") :
    clean_text s = String.mk (joinSp (pyWords (s.data.map replaceNl))) := by
  simp [clean_text, h]

theorem clean_text_idem (s : String) : clean_text (clean_text s) = clean_text s := by
  by_cases h : s = ""
  · subst h; rfl
  · rw [clean_text_eq_of_ne h]
    by_cases h2 : String.mk (joinSp (pyWords (s.data.map replaceNl))) = ""
    · rw [h2]; rfl
    · rw [clean_text_eq_of_ne h2]
      have hgood := pyWords_good (s.data.map replaceNl)
      have hdata : (String.mk (joinSp (pyWords (s.data.map replaceNl)))).data =
          joinSp (pyWords (s.data.map replaceNl)) := rfl
      rw [hdata, map_replaceNl_joinSp _ (fun t ht => (hgood t ht).2),
        pyWords_joinSp _ hgood]

theorem leftTrim_cons_false {c : Char} {l : List Char} (h : isPySpace c = false) :
    leftTrim (c :: l) = c :: l := dropWhile_cons_false h

theorem trimWs_space_cons (y : List Char) : trimWs (' ' :: y) = trimWs y := by
  have hsp : isPySpace ' ' = true := rfl
  simp [trimWs, leftTrim, List.dropWhile_cons, hsp]

theorem length_dropWhile_le (p : Char → Bool) (l : List Char) :
    (l.dropWhile p).length ≤ l.length := by
  induction l with
  | nil => exact le_rfl
  | cons c l' ih =>
    rw [List.dropWhile_cons]
    by_cases h : p c
    · simp only [h, if_true]
      exact le_trans ih (by simp)
    · simp [h]

theorem leftTrim_collapseWs_dropWhile (r' : List Char) :
    leftTrim (collapseWs (r'.dropWhile isPySpace)) = collapseWs (r'.dropWhile isPySpace) := by
  cases hr : r'.dropWhile isPySpace with
  | nil => rfl
  | cons c cs =>
    have hc : isPySpace c = false := dropWhile_head_false hr
    rw [collapseWs_cons_false hc]
    exact leftTrim_cons_false hc

theorem trimCollapse_aux : ∀ n : Nat, ∀ l : List Char, l.length ≤ n →
    trimWs (collapseWs l) = joinSp (pyWords l) := by
  intro n
  induction n with
  | zero =>
    intro l hl
    have : l = [] := List.length_eq_zero.mp (Nat.le_zero.mp hl)
    subst this; rfl
  | succ n ih =>
    intro l hl
    cases l with
    | nil => rfl
    | cons c cs =>
      have hcs : cs.length ≤ n := by simpa using hl
      by_cases hc : isPySpace c
      · have hc' : isPySpace c = true := by simpa using hc
        rw [collapseWs_cons_true hc', trimWs_space_cons, pyWords_cons_true hc',
          ← pyWords_dropWhile cs]
        exact ih (cs.dropWhile isPySpace) (le_trans (length_dropWhile_le _ _) hcs)
      · have hc' : isPySpace c = false := by simpa using hc
        have htfree : wsFree (c :: cs.takeWhile notSpace) := by
          intro x hx
          rcases List.mem_cons.mp hx with h1 | h2
          · subst h1; exact hc'
          · have := List.mem_takeWhile_imp h2
            simpa [notSpace] using this
        have hsplit : c :: cs = (c :: cs.takeWhile notSpace) ++ cs.dropWhile notSpace := by
          simp [List.takeWhile_append_dropWhile]
        rw [pyWords_cons_false hc']
        conv_lhs => rw [hsplit]
        rw [collapseWs_append_wsFree _ htfree]
        have hlt : trimWs ((c :: cs.takeWhile notSpace) ++ collapseWs (cs.dropWhile notSpace)) =
            (c :: cs.takeWhile notSpace) ++ rightTrim (collapseWs (cs.dropWhile notSpace)) := by
          unfold trimWs
          rw [show (c :: cs.takeWhile notSpace) ++ collapseWs (cs.dropWhile notSpace) =
            c :: (cs.takeWhile notSpace ++ collapseWs (cs.dropWhile notSpace)) from rfl,
            leftTrim_cons_false hc']
          exact rightTrim_append_wsFree _ htfree
        rw [hlt]
        cases hrc : cs.dropWhile notSpace with
        | nil =>
          show (c :: cs.takeWhile notSpace) ++ rightTrim (collapseWs []) =
            joinSp ((c :: cs.takeWhile notSpace) :: pyWords [])
          simp [collapseWs, rightTrim, pyWords, wordsAux, joinSp]
        | cons s r' =>
          have hs : isPySpace s = true := by
            have := dropWhile_head_false hrc
            simpa [notSpace] using this
          have hlen2 : (r'.dropWhile isPySpace).length ≤ n := by
            have h1 : (r'.dropWhile isPySpace).length ≤ r'.length := length_dropWhile_le _ _
            have h2 : (cs.dropWhile notSpace).length ≤ cs.length := length_dropWhile_le _ _
            rw [hrc] at h2
            simp only [List.length_cons] at h2
            omega
          have hih := ih (r'.dropWhile isPySpace) hlen2
          have hltr : leftTrim (collapseWs (r'.dropWhile isPySpace)) =
              collapseWs (r'.dropWhile isPySpace) := leftTrim_collapseWs_dropWhile r'
          have hrt : rightTrim (collapseWs (r'.dropWhile isPySpace)) =
              joinSp (pyWords (r'.dropWhile isPySpace)) := by
            unfold trimWs at hih
            rw [hltr] at hih
            exact hih
          have hcol : collapseWs (s :: r') = ' ' :: collapseWs (r'.dropWhile isPySpace) :=
            collapseWs_cons_true hs
          have hwords : pyWords (s :: r') = pyWords (r'.dropWhile isPySpace) := by
            rw [pyWords_cons_true hs]
            exact (pyWords_dropWhile r').symm
          rw [hcol, hwords]
          cases hw : pyWords (r'.dropWhile isPySpace) with
          | nil =>
            have hnil : rightTrim (collapseWs (r'.dropWhile isPySpace)) = [] := by
              rw [hrt, hw]; rfl
            rw [rightTrim_space_cons_of_nil hnil]
            simp [joinSp]
          | cons u us =>
            have hne : rightTrim (collapseWs (r'.dropWhile isPySpace)) ≠ [] := by
              rw [hrt, hw]
              exact joinSp_ne_nil (by simp)
                (fun t ht => (pyWords_good (r'.dropWhile isPySpace) t (hw ▸ ht)).1)
            rw [rightTrim_space_cons_of_ne hne, hrt, hw, joinSp_cons]

theorem clean_text_eq_spec (s : String) : clean_text s = normalizeSpec s := by
  by_cases h : s = ""
  · subst h; rfl
  · rw [clean_text_eq_of_ne h]
    unfold normalizeSpec
    exact congrArg String.mk (trimCollapse_aux _ _ le_rfl).symm

/-! Lemmas on the batch loop -/

theorem runFrom_nil (df : List SourceRow) (K : List String) (remote : Nat → RemoteOutcome)
    (appendOk : Nat → Bool) (st : RunState) :
    runFrom df K remote appendOk [] st = .finished st := rfl

theorem runFrom_cons_skip {df : List SourceRow} {K : List String}
    {remote : Nat → RemoteOutcome} {appendOk : Nat → Bool} {i : Nat} {rest : List Nat}
    {st : RunState} (h : (dfRow df i).context ∈ K) :
    runFrom df K remote appendOk (i :: rest) st =
      runFrom df K remote appendOk rest (skipUpd st i) := by
  simp [runFrom, h]

theorem runFrom_cons_fatal {df : List SourceRow} {K : List String}
    {remote : Nat → RemoteOutcome} {appendOk : Nat → Bool} {i : Nat} {rest : List Nat}
    {st : RunState} {e : Fatal} (hk : (dfRow df i).context ∉ K)
    (ht : translate (remote i) = .error e) :
    runFrom df K remote appendOk (i :: rest) st = .fatal e (fatalUpd st i) := by
  simp [runFrom, hk, ht]

theorem runFrom_cons_ok_append {df : List SourceRow} {K : List String}
    {remote : Nat → RemoteOutcome} {appendOk : Nat → Bool} {i : Nat} {rest : List Nat}
    {st : RunState} {tr : String} {tok : Nat} (hk : (dfRow df i).context ∉ K)
    (ht : translate (remote i) = .ok (tr, tok)) (ha : appendOk i = true) :
    runFrom df K remote appendOk (i :: rest) st =
      runFrom df K remote appendOk rest
        (appendUpd (callUpd st i tok) i ⟨(dfRow df i).context, (dfRow df i).ids, tr⟩) := by
  simp [runFrom, hk, ht, ha]

theorem runFrom_cons_ok_noappend {df : List SourceRow} {K : List String}
    {remote : Nat → RemoteOutcome} {appendOk : Nat → Bool} {i : Nat} {rest : List Nat}
    {st : RunState} {tr : String} {tok : Nat} (hk : (dfRow df i).context ∉ K)
    (ht : translate (remote i) = .ok (tr, tok)) (ha : appendOk i = false) :
    runFrom df K remote appendOk (i :: rest) st =
      runFrom df K remote appendOk rest (callUpd st i tok) := by
  simp [runFrom, hk, ht, ha]

theorem runFrom_append_finished (df : List SourceRow) (K : List String)
    (remote : Nat → RemoteOutcome) (appendOk : Nat → Bool) (st' : RunState) :
    ∀ (l1 : List Nat) (st : RunState),
      runFrom df K remote appendOk l1 st = .finished st' →
      ∀ l2, runFrom df K remote appendOk (l1 ++ l2) st = runFrom df K remote appendOk l2 st' := by
  intro l1
  induction l1 with
  | nil =>
    intro st h l2
    rw [runFrom_nil] at h
    cases h
    rfl
  | cons i rest ih =>
    intro st h l2
    rw [List.cons_append]
    by_cases hk : (dfRow df i).context ∈ K
    · rw [runFrom_cons_skip hk] at h
      rw [runFrom_cons_skip hk]
      exact ih _ h l2
    · cases ht : translate (remote i) with
      | error e =>
        rw [runFrom_cons_fatal hk ht] at h
        cases h
      | ok p =>
        obtain ⟨tr, tok⟩ := p
        by_cases ha : appendOk i
        · have ha' : appendOk i = true := by simpa using ha
          rw [runFrom_cons_ok_append hk ht ha'] at h
          rw [runFrom_cons_ok_append hk ht ha']
          exact ih _ h l2
        · have ha' : appendOk i = false := by simpa using ha
          rw [runFrom_cons_ok_noappend hk ht ha'] at h
          rw [runFrom_cons_ok_noappend hk ht ha']
          exact ih _ h l2

theorem translate_error_quota {msg : String} (h : isQuotaMsg msg = true) :
    translate (.error msg) = .error .quota := by
  simp [translate, h]

theorem translate_ok_token {r : RemoteOutcome} {tr : String} {tok : Nat}
    (h : translate r = .ok (tr, tok)) : tok = tokenOf r := by
  cases r with
  | success text usage =>
    simp only [translate, Except.ok.injEq, Prod.mk.injEq] at h
    rw [← h.2]
    rfl
  | error msg =>
    by_cases hq : isQuotaMsg msg
    · simp [translate, hq] at h
    · simp [translate, hq] at h

theorem runFrom_output_extend (df : List SourceRow) (K : List String)
    (remote : Nat → RemoteOutcome) (appendOk : Nat → Bool) :
    ∀ (idxs : List Nat) (st : RunState),
      ∃ tail, (resultState (runFrom df K remote appendOk idxs st)).output = st.output ++ tail := by
  intro idxs
  induction idxs with
  | nil => intro st; exact ⟨[], by simp [runFrom_nil, resultState]⟩
  | cons i rest ih =>
    intro st
    by_cases hk : (dfRow df i).context ∈ K
    · rw [runFrom_cons_skip hk]
      obtain ⟨tail, htail⟩ := ih (skipUpd st i)
      exact ⟨tail, by simpa [skipUpd] using htail⟩
    · cases ht : translate (remote i) with
      | error e =>
        rw [runFrom_cons_fatal hk ht]
        exact ⟨[], by simp [resultState, fatalUpd]⟩
      | ok p =>
        obtain ⟨tr, tok⟩ := p
        by_cases ha : appendOk i
        · have ha' : appendOk i = true := by simpa using ha
          rw [runFrom_cons_ok_append hk ht ha']
          obtain ⟨tail, htail⟩ := ih
            (appendUpd (callUpd st i tok) i ⟨(dfRow df i).context, (dfRow df i).ids, tr⟩)
          refine ⟨⟨(dfRow df i).context, (dfRow df i).ids, tr⟩ :: tail, ?_⟩
          rw [htail]
          simp [appendUpd, callUpd]
        · have ha' : appendOk i = false := by simpa using ha
          rw [runFrom_cons_ok_noappend hk ht ha']
          obtain ⟨tail, htail⟩ := ih (callUpd st i tok)
          exact ⟨tail, by simpa [callUpd] using htail⟩

theorem runFrom_all_skip (df : List SourceRow) (K : List String)
    (remote : Nat → RemoteOutcome) (appendOk : Nat → Bool) :
    ∀ (idxs : List Nat) (st : RunState), (∀ i ∈ idxs, (dfRow df i).context ∈ K) →
      runFrom df K remote appendOk idxs st =
        .finished { st with visited := st.visited ++ idxs,
                            skipped := st.skipped + idxs.length } := by
  intro idxs
  induction idxs with
  | nil => intro st _; simp [runFrom_nil]
  | cons i rest ih =>
    intro st h
    rw [runFrom_cons_skip (h i (by simp))]
    rw [ih (skipUpd st i) (fun j hj => h j (by simp [hj]))]
    simp [skipUpd, Nat.add_assoc, Nat.add_comm 1 rest.length]

theorem runFrom_finished_covered (df : List SourceRow) (K : List String)
    (remote : Nat → RemoteOutcome) (appendOk : Nat → Bool) (st' : RunState)
    (hap : ∀ i, appendOk i = true) :
    ∀ (idxs : List Nat) (st : RunState),
      runFrom df K remote appendOk idxs st = .finished st' →
      ∀ i ∈ idxs, (dfRow df i).context ∈ K ∨ (dfRow df i).context ∈ keysOf st'.output := by
  intro idxs
  induction idxs with
  | nil => intro st _ i hi; simp at hi
  | cons i rest ih =>
    intro st h j hj
    by_cases hk : (dfRow df i).context ∈ K
    · rw [runFrom_cons_skip hk] at h
      rcases List.mem_cons.mp hj with h1 | h2
      · subst h1; exact Or.inl hk
      · exact ih _ h j h2
    · cases ht : translate (remote i) with
      | error e =>
        rw [runFrom_cons_fatal hk ht] at h
        cases h
      | ok p =>
        obtain ⟨tr, tok⟩ := p
        rw [runFrom_cons_ok_append hk ht (hap i)] at h
        rcases List.mem_cons.mp hj with h1 | h2
        · subst h1
          right
          obtain ⟨tail, htail⟩ := runFrom_output_extend df K remote appendOk rest
            (appendUpd (callUpd st j tok) j ⟨(dfRow df j).context, (dfRow df j).ids, tr⟩)
          rw [h] at htail
          simp only [resultState] at htail
          have hmem : (⟨(dfRow df j).context, (dfRow df j).ids, tr⟩ : OutRow) ∈ st'.output := by
            rw [htail]
            simp [appendUpd, callUpd]
          exact List.mem_map.mpr ⟨_, hmem, rfl⟩
        · exact ih _ h j h2

theorem runFrom_finished_shape (df : List SourceRow) (K : List String)
    (remote : Nat → RemoteOutcome) (appendOk : Nat → Bool) (st' : RunState) :
    ∀ (idxs : List Nat) (st : RunState),
      runFrom df K remote appendOk idxs st = .finished st' →
      st'.visited = st.visited ++ idxs ∧
      st'.skipped = st.skipped + idxs.countP (fun i => decide ((dfRow df i).context ∈ K)) ∧
      st'.processed = st.processed + idxs.countP (fun i => !decide ((dfRow df i).context ∈ K)) ∧
      ∃ newCalls, st'.calls = st.calls ++ newCalls ∧
        st'.tokens = st.tokens + (newCalls.map (fun i => tokenOf (remote i))).sum := by
  intro idxs
  induction idxs with
  | nil =>
    intro st h
    rw [runFrom_nil] at h
    cases h
    exact ⟨by simp, by simp, by simp, [], by simp, by simp⟩
  | cons i rest ih =>
    intro st h
    by_cases hk : (dfRow df i).context ∈ K
    · rw [runFrom_cons_skip hk] at h
      obtain ⟨h1, h2, h3, newCalls, h4, h5⟩ := ih _ h
      refine ⟨?_, ?_, ?_, newCalls, ?_, ?_⟩
      · rw [h1]; simp [skipUpd]
      · rw [h2]; simp [skipUpd, List.countP_cons, hk]; omega
      · rw [h3]; simp [callUpd, skipUpd, List.countP_cons, hk]
      · rw [h4]; simp [skipUpd]
      · rw [h5]; simp [skipUpd]
    · cases ht : translate (remote i) with
      | error e =>
        rw [runFrom_cons_fatal hk ht] at h
        cases h
      | ok p =>
        obtain ⟨tr, tok⟩ := p
        have htok : tok = tokenOf (remote i) := translate_ok_token ht
        by_cases ha : appendOk i
        · have ha' : appendOk i = true := by simpa using ha
          rw [runFrom_cons_ok_append hk ht ha'] at h
          obtain ⟨h1, h2, h3, newCalls, h4, h5⟩ := ih _ h
          refine ⟨?_, ?_, ?_, i :: newCalls, ?_, ?_⟩
          · rw [h1]; simp [appendUpd, callUpd]
          · rw [h2]; simp [appendUpd, callUpd, List.countP_cons, hk]
          · rw [h3]; simp [appendUpd, callUpd, List.countP_cons, hk]; omega
          · rw [h4]; simp [appendUpd, callUpd]
          · rw [h5]; simp [appendUpd, callUpd, htok]; omega
        · have ha' : appendOk i = false := by simpa using ha
          rw [runFrom_cons_ok_noappend hk ht ha'] at h
          obtain ⟨h1, h2, h3, newCalls, h4, h5⟩ := ih _ h
          refine ⟨?_, ?_, ?_, i :: newCalls, ?_, ?_⟩
          · rw [h1]; simp [callUpd]
          · rw [h2]; simp [callUpd, List.countP_cons, hk]
          · rw [h3]; simp [callUpd, List.countP_cons, hk]; omega
          · rw [h4]; simp [callUpd]
          · rw [h5]; simp [callUpd, htok]; omega

theorem runFrom_trace_bound (df : List SourceRow) (K : List String)
    (remote : Nat → RemoteOutcome) (appendOk : Nat → Bool) :
    ∀ (idxs : List Nat) (st : RunState),
      (∀ j ∈ (resultState (runFrom df K remote appendOk idxs st)).calls,
        j ∈ st.calls ∨ j ∈ idxs) ∧
      (∀ j ∈ (resultState (runFrom df K remote appendOk idxs st)).appends,
        j ∈ st.appends ∨ j ∈ idxs) := by
  intro idxs
  induction idxs with
  | nil => intro st; exact ⟨fun j hj => Or.inl (by simpa [runFrom_nil, resultState] using hj),
      fun j hj => Or.inl (by simpa [runFrom_nil, resultState] using hj)⟩
  | cons i rest ih =>
    intro st
    by_cases hk : (dfRow df i).context ∈ K
    · rw [runFrom_cons_skip hk]
      refine ⟨fun j hj => ?_, fun j hj => ?_⟩
      · rcases (ih (skipUpd st i)).1 j hj with h1 | h2
        · exact Or.inl (by simpa [skipUpd] using h1)
        · exact Or.inr (by simp [h2])
      · rcases (ih (skipUpd st i)).2 j hj with h1 | h2
        · exact Or.inl (by simpa [skipUpd] using h1)
        · exact Or.inr (by simp [h2])
    · cases ht : translate (remote i) with
      | error e =>
        rw [runFrom_cons_fatal hk ht]
        refine ⟨fun j hj => ?_, fun j hj => ?_⟩
        · simp [resultState, fatalUpd] at hj
          rcases hj with h1 | h2
          · exact Or.inl h1
          · exact Or.inr (by simp [h2])
        · simp [resultState, fatalUpd] at hj
          exact Or.inl hj
      | ok p =>
        obtain ⟨tr, tok⟩ := p
        by_cases ha : appendOk i
        · have ha' : appendOk i = true := by simpa using ha
          rw [runFrom_cons_ok_append hk ht ha']
          refine ⟨fun j hj => ?_, fun j hj => ?_⟩
          · rcases (ih _).1 j hj with h1 | h2
            · simp [appendUpd, callUpd] at h1
              rcases h1 with h1 | h1
              · exact Or.inl h1
              · exact Or.inr (by simp [h1])
            · exact Or.inr (by simp [h2])
          · rcases (ih _).2 j hj with h1 | h2
            · simp [appendUpd, callUpd] at h1
              rcases h1 with h1 | h1
              · exact Or.inl h1
              · exact Or.inr (by simp [h1])
            · exact Or.inr (by simp [h2])
        · have ha' : appendOk i = false := by simpa using ha
          rw [runFrom_cons_ok_noappend hk ht ha']
          refine ⟨fun j hj => ?_, fun j hj => ?_⟩
          · rcases (ih _).1 j hj with h1 | h2
            · simp [callUpd] at h1
              rcases h1 with h1 | h1
              · exact Or.inl h1
              · exact Or.inr (by simp [h1])
            · exact Or.inr (by simp [h2])
          · rcases (ih _).2 j hj with h1 | h2
            · exact Or.inl (by simpa [callUpd] using h1)
            · exact Or.inr (by simp [h2])

theorem keysOf_append (a b : List OutRow) : keysOf (a ++ b) = keysOf a ++ keysOf b :=
  List.map_append _ a b

theorem runFrom_nodup (df : List SourceRow) (K : List String)
    (remote : Nat → RemoteOutcome) (appendOk : Nat → Bool) :
    ∀ (idxs : List Nat) (st : RunState),
      (keysOf st.output).Nodup →
      ((idxs.map (fun i => (dfRow df i).context)).filter
        (fun c => !decide (c ∈ K))).Nodup →
      (∀ i ∈ idxs, (dfRow df i).context ∉ K → (dfRow df i).context ∉ keysOf st.output) →
      (keysOf (resultState (runFrom df K remote appendOk idxs st)).output).Nodup := by
  intro idxs
  induction idxs with
  | nil => intro st h1 _ _; simpa [runFrom_nil, resultState] using h1
  | cons i rest ih =>
    intro st h1 h2 h3
    by_cases hk : (dfRow df i).context ∈ K
    · rw [runFrom_cons_skip hk]
      have h2' : ((rest.map (fun i => (dfRow df i).context)).filter
          (fun c => !decide (c ∈ K))).Nodup := by
        have : ((i :: rest).map (fun i => (dfRow df i).context)).filter
            (fun c => !decide (c ∈ K)) =
            (rest.map (fun i => (dfRow df i).context)).filter (fun c => !decide (c ∈ K)) := by
          simp [List.filter_cons, hk]
        rw [this] at h2
        exact h2
      apply ih (skipUpd st i) (by simpa [skipUpd] using h1) h2'
      intro j hj hcj
      have := h3 j (by simp [hj]) hcj
      simpa [skipUpd] using this
    · have hfilter : ((i :: rest).map (fun i => (dfRow df i).context)).filter
          (fun c => !decide (c ∈ K)) =
          (dfRow df i).context ::
            ((rest.map (fun i => (dfRow df i).context)).filter (fun c => !decide (c ∈ K))) := by
        simp [List.filter_cons, hk]
      rw [hfilter] at h2
      have h2rest := (List.nodup_cons.mp h2).2
      have hnotmem := (List.nodup_cons.mp h2).1
      cases ht : translate (remote i) with
      | error e =>
        rw [runFrom_cons_fatal hk ht]
        simpa [resultState, fatalUpd] using h1
      | ok p =>
        obtain ⟨tr, tok⟩ := p
        by_cases ha : appendOk i
        · have ha' : appendOk i = true := by simpa using ha
          rw [runFrom_cons_ok_append hk ht ha']
          apply ih
          · show (keysOf ((appendUpd (callUpd st i tok) i
              ⟨(dfRow df i).context, (dfRow df i).ids, tr⟩).output)).Nodup
            have hout : (appendUpd (callUpd st i tok) i
                ⟨(dfRow df i).context, (dfRow df i).ids, tr⟩).output =
                st.output ++ [⟨(dfRow df i).context, (dfRow df i).ids, tr⟩] := by
              simp [appendUpd, callUpd]
            rw [hout, keysOf_append]
            have hni : (dfRow df i).context ∉ keysOf st.output := h3 i (by simp) hk
            apply List.Nodup.append h1 (by simp [keysOf])
            intro c hc1 hc2
            simp only [keysOf, List.map_cons, List.map_nil, List.mem_singleton] at hc2
            subst hc2
            exact hni hc1
          · exact h2rest
          · intro j hj hcj
            have hold : (dfRow df j).context ∉ keysOf st.output := h3 j (by simp [hj]) hcj
            have hne : (dfRow df j).context ≠ (dfRow df i).context := by
              intro heq
              apply hnotmem
              exact List.mem_filter.mpr ⟨List.mem_map.mpr ⟨j, hj, heq⟩, by simp [hk]⟩
            have hout : (appendUpd (callUpd st i tok) i
                ⟨(dfRow df i).context, (dfRow df i).ids, tr⟩).output =
                st.output ++ [⟨(dfRow df i).context, (dfRow df i).ids, tr⟩] := by
              simp [appendUpd, callUpd]
            rw [hout, keysOf_append]
            simp only [List.mem_append]
            rintro (hmem | hmem)
            · exact hold hmem
            · simp [keysOf] at hmem
              exact hne hmem
        · have ha' : appendOk i = false := by simpa using ha
          rw [runFrom_cons_ok_noappend hk ht ha']
          apply ih (callUpd st i tok) (by simpa [callUpd] using h1) h2rest
          intro j hj hcj
          have := h3 j (by simp [hj]) hcj
          simpa [callUpd] using this

theorem countP_bool_split (p : Nat → Bool) (l : List Nat) :
    l.countP (fun i => !p i) + l.countP p = l.length := by
  induction l with
  | nil => rfl
  | cons a l ih =>
    by_cases h : p a
    · have h' : p a = true := by simpa using h
      simp [List.countP_cons, h']
      omega
    · have h' : p a = false := by simpa using h
      simp [List.countP_cons, h']
      omega

/-! The claims -/

/-- C6: `clean_text` replaces every carriage return and line feed with a
space, collapses every run of whitespace to a single space and trims
leading and trailing whitespace — it coincides with the spec-side
replace/collapse/trim pipeline `normalizeSpec` on every string — it is
idempotent, and `clean_text "a\n\nb  c\r" = "a b c"`. -/
theorem c6_clean_text_normalization :
    (∀ s : String, clean_text s = normalizeSpec s) ∧
    (∀ s : String, clean_text (clean_text s) = clean_text s) ∧
    clean_text "a\n\nb  c\r" = "a b c" :=
  ⟨clean_text_eq_spec, clean_text_idem, by decide⟩

/-- C8: the progress-store bootstrap behaves by cases on the output path:
a readable sink with a `context` column yields as completed keys exactly
the values of that column (membership characterized); an unreadable or
malformed sink yields an empty completed set and the run proceeds; an
absent sink is created with exactly the header `context, id, context_my`
and an empty completed set; and a creation failure is fatal (process exits
non-zero, modelled by `Except.error`). -/
theorem c8_bootstrap_cases :
    (∀ rows, bootstrap (.readable rows) = .ok ⟨keysOf rows, none⟩ ∧
      (∀ s, s ∈ keysOf rows ↔ ∃ r ∈ rows, r.context = s)) ∧
    bootstrap .malformed = .ok ⟨[], none⟩ ∧
    (bootstrap (.absent true) = .ok ⟨[], some outHeader⟩ ∧
      outHeader = ["context", "id", "context_my"]) ∧
    bootstrap (.absent false) = .error () := by
  refine ⟨fun rows => ⟨rfl, fun s => ?_⟩, rfl, ⟨rfl, rfl⟩, rfl⟩
  simp [keysOf]

/-- C4 counterexample: the claim says `translate` returns the remote
response text verbatim, normalization being applied afterwards by the
batch loop; but on a successful response with text `"a\nb"` the source's
`translate` already returns the normalized `"a b"`, not `"a\nb"` —
`clean_text` is applied inside `translate` (source lines 32-33). -/
theorem c4_translate_verbatim_cex :
    translate (.success "a\nb" (some 5)) = .ok ("a b", 5) ∧
    ("a b" : String) ≠ "a\nb" ∧
    translate (.success "a\nb" (some 5)) ≠ .ok ("a\nb", 5) := by
  refine ⟨rfl, by decide, fun h => ?_⟩
  have h2 : (("a b" : String), (5 : Nat)) = (("a\nb" : String), 5) := Except.ok.inj h
  have h3 : ("a b" : String) = "a\nb" := congrArg Prod.fst h2
  exact absurd h3 (by decide)

/-- C4 amended: on every successful remote call, `translate` returns the
response text with surrounding whitespace stripped and `clean_text`
normalization already applied, together with the reported token count;
the batch loop then appends exactly that already-normalized text to the
sink, applying no further transformation of its own. -/
theorem c4_translate_normalized (text : String) (usage : Option Nat)
    (df : List SourceRow) (K : List String) (remote : Nat → RemoteOutcome)
    (appendOk : Nat → Bool) (i : Nat) (rest : List Nat) (st : RunState)
    (hk : (dfRow df i).context ∉ K) (hr : remote i = .success text usage)
    (ha : appendOk i = true) :
    translate (.success text usage) = .ok (clean_text (pyStrip text), usage.getD 0) ∧
    runFrom df K remote appendOk (i :: rest) st =
      runFrom df K remote appendOk rest
        (appendUpd (callUpd st i (usage.getD 0)) i
          ⟨(dfRow df i).context, (dfRow df i).ids, clean_text (pyStrip text)⟩) := by
  have ht : translate (remote i) = .ok (clean_text (pyStrip text), usage.getD 0) := by
    rw [hr]; rfl
  exact ⟨rfl, runFrom_cons_ok_append hk ht ha⟩

theorem c4_translate_normalized_witness :
    translate (.success " x\ny " (some 7)) = .ok (clean_text (pyStrip " x\ny "), 7) ∧
    runFrom [⟨"a", "1"⟩] [] (fun _ => .success " x\ny " (some 7)) (fun _ => true)
        (0 :: []) (initState []) =
      runFrom [⟨"a", "1"⟩] [] (fun _ => .success " x\ny " (some 7)) (fun _ => true) []
        (appendUpd (callUpd (initState []) 0 7) 0
          ⟨"a", "1", clean_text (pyStrip " x\ny ")⟩) :=
  c4_translate_normalized " x\ny " (some 7) [⟨"a", "1"⟩] []
    (fun _ => .success " x\ny " (some 7)) (fun _ => true) 0 [] (initState [])
    (by decide) rfl rfl

/-- C9: a successful remote response with no usage metadata yields token
count zero together with the non-fatal warning; with metadata it yields
the reported total token count and no warning; and in every run that
finishes its range, the cumulative token usage equals the sum of the
per-call token counts over the rows actually processed (the remote-call
trace). -/
theorem c9_token_accounting (df : List SourceRow) (K : List String)
    (remote : Nat → RemoteOutcome) (appendOk : Nat → Bool) (start : Nat)
    (endOpt : Option Nat) (rows : List OutRow) (st' : RunState)
    (h : run df K remote appendOk start endOpt rows = .finished st') :
    st'.tokens = (st'.calls.map (fun i => tokenOf (remote i))).sum ∧
    (∀ text, translate (.success text none) = .ok (clean_text (pyStrip text), 0) ∧
      usageWarned (.success text none) = true) ∧
    (∀ text u, translate (.success text (some u)) = .ok (clean_text (pyStrip text), u) ∧
      usageWarned (.success text (some u)) = false) := by
  refine ⟨?_, fun text => ⟨rfl, rfl⟩, fun text u => ⟨rfl, rfl⟩⟩
  obtain ⟨h1, h2, h3, newCalls, h4, h5⟩ :=
    runFrom_finished_shape df K remote appendOk st' _ _ h
  rw [h4, h5]
  simp [initState]

theorem c9_token_accounting_witness :
    (⟨[⟨"a", "1", "x"⟩], [0], [0], [0], 1, 0, 3⟩ : RunState).tokens =
      (([0] : List Nat).map
        (fun i => tokenOf ((fun _ : Nat => RemoteOutcome.success "x" (some 3)) i))).sum ∧
    (∀ text, translate (.success text none) = .ok (clean_text (pyStrip text), 0) ∧
      usageWarned (.success text none) = true) ∧
    (∀ text u, translate (.success text (some u)) = .ok (clean_text (pyStrip text), u) ∧
      usageWarned (.success text (some u)) = false) :=
  c9_token_accounting [⟨"a", "1"⟩] [] (fun _ => .success "x" (some 3)) (fun _ => true)
    0 none [] ⟨[⟨"a", "1", "x"⟩], [0], [0], [0], 1, 0, 3⟩ (by decide)

/-- C10: in every run that finishes its range, each visited index
increments exactly one of the two counters — skipped when its source text
is in the completed-keys set, processed otherwise — so skipped-count is the
number of range indices whose text is in the completed set, processed-count
is the number of the others, and their sum is the size of the effective
range. -/
theorem c10_counter_partition (df : List SourceRow) (K : List String)
    (remote : Nat → RemoteOutcome) (appendOk : Nat → Bool) (start : Nat)
    (endOpt : Option Nat) (rows : List OutRow) (st' : RunState)
    (h : run df K remote appendOk start endOpt rows = .finished st') :
    st'.skipped = (effRange start endOpt df.length).countP
        (fun i => decide ((dfRow df i).context ∈ K)) ∧
    st'.processed = (effRange start endOpt df.length).countP
        (fun i => !decide ((dfRow df i).context ∈ K)) ∧
    st'.processed + st'.skipped = (effRange start endOpt df.length).length := by
  obtain ⟨h1, h2, h3, newCalls, h4, h5⟩ :=
    runFrom_finished_shape df K remote appendOk st' _ _ h
  refine ⟨?_, ?_, ?_⟩
  · rw [h2]; simp [initState]
  · rw [h3]; simp [initState]
  · rw [h2, h3]
    simp only [initState, Nat.zero_add]
    exact countP_bool_split _ _

theorem c10_counter_partition_witness :
    (⟨[⟨"b", "2", "x"⟩], [0, 1], [1], [1], 1, 1, 1⟩ : RunState).skipped =
      (effRange 0 none 2).countP
        (fun i => decide ((dfRow [⟨"a", "1"⟩, ⟨"b", "2"⟩] i).context ∈ ["a"])) ∧
    (⟨[⟨"b", "2", "x"⟩], [0, 1], [1], [1], 1, 1, 1⟩ : RunState).processed =
      (effRange 0 none 2).countP
        (fun i => !decide ((dfRow [⟨"a", "1"⟩, ⟨"b", "2"⟩] i).context ∈ ["a"])) ∧
    (⟨[⟨"b", "2", "x"⟩], [0, 1], [1], [1], 1, 1, 1⟩ : RunState).processed +
      (⟨[⟨"b", "2", "x"⟩], [0, 1], [1], [1], 1, 1, 1⟩ : RunState).skipped =
      (effRange 0 none 2).length :=
  c10_counter_partition [⟨"a", "1"⟩, ⟨"b", "2"⟩] ["a"] (fun _ => .success "x" (some 1))
    (fun _ => true) 0 none [] ⟨[⟨"b", "2", "x"⟩], [0, 1], [1], [1], 1, 1, 1⟩ (by decide)

/-- C5: the batch loop visits exactly the indices of
`[start, min(end, totalRows))` in increasing order, `end` defaulting to
`totalRows` when absent; with `start = 2`, `end = 5` over a 10-row source
the range is exactly `[2, 3, 4]`; a finished run's visited trace is exactly
the range, and in every run (finished or aborted) remote calls and appends
happen only at range indices. -/
theorem c5_range_correctness (df : List SourceRow) (K : List String)
    (remote : Nat → RemoteOutcome) (appendOk : Nat → Bool) (start : Nat)
    (endOpt : Option Nat) (total : Nat) (rows : List OutRow) :
    (∀ i, i ∈ effRange start endOpt total ↔
      start ≤ i ∧ i < min (endOpt.getD total) total) ∧
    effRange start none total = effRange start (some total) total ∧
    (effRange start endOpt total).Pairwise (· < ·) ∧
    effRange 2 (some 5) 10 = [2, 3, 4] ∧
    (∀ st', run df K remote appendOk start endOpt rows = .finished st' →
      st'.visited = effRange start endOpt df.length) ∧
    (∀ j ∈ (resultState (run df K remote appendOk start endOpt rows)).calls,
      j ∈ effRange start endOpt df.length) ∧
    (∀ j ∈ (resultState (run df K remote appendOk start endOpt rows)).appends,
      j ∈ effRange start endOpt df.length) := by
  refine ⟨?_, rfl, ?_, by decide, ?_, ?_, ?_⟩
  · intro i
    unfold effRange
    rw [List.mem_range'_1]
    omega
  · exact List.pairwise_lt_range' _ _
  · intro st' h
    obtain ⟨h1, _, _, _, _, _⟩ := runFrom_finished_shape df K remote appendOk st' _ _ h
    rw [h1]
    simp [initState]
  · intro j hj
    rcases (runFrom_trace_bound df K remote appendOk _ (initState rows)).1 j hj with h1 | h2
    · simp [initState] at h1
    · exact h2
  · intro j hj
    rcases (runFrom_trace_bound df K remote appendOk _ (initState rows)).2 j hj with h1 | h2
    · simp [initState] at h1
    · exact h2

theorem c5_range_correctness_witness :
    (⟨[⟨"a", "1", "x"⟩], [0], [0], [0], 1, 0, 3⟩ : RunState).visited = effRange 0 none 1 :=
  (c5_range_correctness [⟨"a", "1"⟩] [] (fun _ => .success "x" (some 3)) (fun _ => true)
    0 none 1 []).2.2.2.2.1 ⟨[⟨"a", "1", "x"⟩], [0], [0], [0], 1, 0, 3⟩ (by decide)

/-- C3: when the remote call signals a resource-exhausted /
too-many-requests condition on a range row `i` (after a prefix of the
range completed normally), the run terminates at once in the
`fatal .quota` terminal — the `sys.exit(1)` of source line 45, a non-zero
process status: the remote-call trace gains only `i` (no later row's
remote call is made), the append trace gains nothing (no further append),
and the output adopted at termination is exactly the rows already
appended. -/
theorem c3_quota_short_circuit (df : List SourceRow) (K : List String)
    (remote : Nat → RemoteOutcome) (appendOk : Nat → Bool) (start : Nat)
    (endOpt : Option Nat) (rows : List OutRow) (pre post : List Nat) (i : Nat)
    (msg : String) (st1 : RunState)
    (hrange : effRange start endOpt df.length = pre ++ i :: post)
    (hpre : runFrom df K remote appendOk pre (initState rows) = .finished st1)
    (hk : (dfRow df i).context ∉ K)
    (hr : remote i = .error msg) (hq : isQuotaMsg msg = true) :
    run df K remote appendOk start endOpt rows = .fatal .quota (fatalUpd st1 i) ∧
    (fatalUpd st1 i).output = st1.output ∧
    (fatalUpd st1 i).appends = st1.appends ∧
    (fatalUpd st1 i).calls = st1.calls ++ [i] ∧
    (fatalUpd st1 i).visited = st1.visited ++ [i] := by
  refine ⟨?_, rfl, rfl, rfl, rfl⟩
  show runFrom df K remote appendOk (effRange start endOpt df.length) (initState rows) = _
  rw [hrange,
    runFrom_append_finished df K remote appendOk st1 pre (initState rows) hpre (i :: post)]
  exact runFrom_cons_fatal hk (by rw [hr]; exact translate_error_quota hq)

theorem c3_quota_short_circuit_witness :
    run [⟨"a", "1"⟩, ⟨"b", "2"⟩] []
        (fun j => if j = 0 then .success "x" (some 3) else .error "RESOURCE_EXHAUSTED")
        (fun _ => true) 0 none [] =
      .fatal .quota (fatalUpd ⟨[⟨"a", "1", "x"⟩], [0], [0], [0], 1, 0, 3⟩ 1) ∧
    (fatalUpd (⟨[⟨"a", "1", "x"⟩], [0], [0], [0], 1, 0, 3⟩ : RunState) 1).output =
      (⟨[⟨"a", "1", "x"⟩], [0], [0], [0], 1, 0, 3⟩ : RunState).output ∧
    (fatalUpd (⟨[⟨"a", "1", "x"⟩], [0], [0], [0], 1, 0, 3⟩ : RunState) 1).appends =
      (⟨[⟨"a", "1", "x"⟩], [0], [0], [0], 1, 0, 3⟩ : RunState).appends ∧
    (fatalUpd (⟨[⟨"a", "1", "x"⟩], [0], [0], [0], 1, 0, 3⟩ : RunState) 1).calls =
      (⟨[⟨"a", "1", "x"⟩], [0], [0], [0], 1, 0, 3⟩ : RunState).calls ++ [1] ∧
    (fatalUpd (⟨[⟨"a", "1", "x"⟩], [0], [0], [0], 1, 0, 3⟩ : RunState) 1).visited =
      (⟨[⟨"a", "1", "x"⟩], [0], [0], [0], 1, 0, 3⟩ : RunState).visited ++ [1] :=
  c3_quota_short_circuit [⟨"a", "1"⟩, ⟨"b", "2"⟩] []
    (fun j => if j = 0 then .success "x" (some 3) else .error "RESOURCE_EXHAUSTED")
    (fun _ => true) 0 none [] [0] [] 1 "RESOURCE_EXHAUSTED"
    ⟨[⟨"a", "1", "x"⟩], [0], [0], [0], 1, 0, 3⟩
    (by decide) (by decide) (by decide) rfl (by decide)

/-- C7: a failed append for one row is non-fatal: the loop proceeds to the
next index with `processed_count` already incremented and the row's token
usage already added — neither rolled back — while the sink content and the
append trace are unchanged for that row; the completed-keys set `K` is not
updated (the continuation runs with the very same `K`), and skipped-count
is untouched. -/
theorem c7_append_failure_nonfatal (df : List SourceRow) (K : List String)
    (remote : Nat → RemoteOutcome) (appendOk : Nat → Bool) (i : Nat)
    (rest : List Nat) (st : RunState) (text : String) (usage : Option Nat)
    (hk : (dfRow df i).context ∉ K) (hr : remote i = .success text usage)
    (ha : appendOk i = false) :
    runFrom df K remote appendOk (i :: rest) st =
      runFrom df K remote appendOk rest (callUpd st i (usage.getD 0)) ∧
    (callUpd st i (usage.getD 0)).output = st.output ∧
    (callUpd st i (usage.getD 0)).appends = st.appends ∧
    (callUpd st i (usage.getD 0)).processed = st.processed + 1 ∧
    (callUpd st i (usage.getD 0)).tokens = st.tokens + usage.getD 0 ∧
    (callUpd st i (usage.getD 0)).skipped = st.skipped := by
  have ht : translate (remote i) = .ok (clean_text (pyStrip text), usage.getD 0) := by
    rw [hr]; rfl
  exact ⟨runFrom_cons_ok_noappend hk ht ha, rfl, rfl, rfl, rfl, rfl⟩

theorem c7_append_failure_nonfatal_witness :
    runFrom [⟨"a", "1"⟩] [] (fun _ => .success "x" (some 4)) (fun _ => false)
        (0 :: []) (initState []) =
      runFrom [⟨"a", "1"⟩] [] (fun _ => .success "x" (some 4)) (fun _ => false) []
        (callUpd (initState []) 0 4) ∧
    (callUpd (initState []) 0 4).output = (initState []).output ∧
    (callUpd (initState []) 0 4).appends = (initState []).appends ∧
    (callUpd (initState []) 0 4).processed = (initState []).processed + 1 ∧
    (callUpd (initState []) 0 4).tokens = (initState []).tokens + 4 ∧
    (callUpd (initState []) 0 4).skipped = (initState []).skipped :=
  c7_append_failure_nonfatal [⟨"a", "1"⟩] [] (fun _ => .success "x" (some 4))
    (fun _ => false) 0 [] (initState []) "x" (some 4) (by decide) rfl rfl

/-- C2 counterexample: with an empty initial sink and a source whose text
column repeats the value `"a"` at indices 0 and 1, one run appends both
rows — the in-memory completed set is never updated during the loop — so
after the run the output sink's source-text column is `["a", "a"]`: a
repeated value, contradicting the claimed invariant for sources with
repeated text values. -/
theorem c2_duplicate_keys_cex :
    keysOf (resultState (run [⟨"a", "1"⟩, ⟨"a", "2"⟩] [] (fun _ => .success "x" (some 1))
      (fun _ => true) 0 none [])).output = ["a", "a"] ∧
    ¬ (keysOf (resultState (run [⟨"a", "1"⟩, ⟨"a", "2"⟩] [] (fun _ => .success "x" (some 1))
      (fun _ => true) 0 none [])).output).Nodup :=
  ⟨by decide, by decide⟩

/-- C2 amended: provided the initial sink's source-text column has no
repeated value and the source texts of the range's rows that are outside
the completed set are pairwise distinct, the output sink's source-text
column contains no repeated value after the run (finished or aborted).
Without the distinctness proviso the invariant fails: within one run the
completed set is not updated, so a repeated source text is appended once
per occurrence. -/
theorem c2_no_duplicate_keys (df : List SourceRow) (remote : Nat → RemoteOutcome)
    (appendOk : Nat → Bool) (start : Nat) (endOpt : Option Nat) (rows : List OutRow)
    (h1 : (keysOf rows).Nodup)
    (h2 : (((effRange start endOpt df.length).map (fun i => (dfRow df i).context)).filter
      (fun c => !decide (c ∈ keysOf rows))).Nodup) :
    (keysOf (resultState
      (run df (keysOf rows) remote appendOk start endOpt rows)).output).Nodup := by
  apply runFrom_nodup df (keysOf rows) remote appendOk _ (initState rows) h1 h2
  intro j hj hcj
  exact hcj

theorem c2_no_duplicate_keys_witness :
    (keysOf (resultState (run [⟨"a", "1"⟩, ⟨"b", "2"⟩] (keysOf [⟨"c", "9", "z"⟩])
      (fun _ => .success "x" (some 1)) (fun _ => true) 0 none
      [⟨"c", "9", "z"⟩])).output).Nodup :=
  c2_no_duplicate_keys [⟨"a", "1"⟩, ⟨"b", "2"⟩] (fun _ => .success "x" (some 1))
    (fun _ => true) 0 none [⟨"c", "9", "z"⟩] (by decide) (by decide)

/-- C1 counterexample: over the one-row source with text `"a"` and a
pre-existing intact sink already containing key `"a"`, the first run skips
the row and leaves the sink unchanged, so the second run — over that same
sink — also finishes with skipped-count 1, which differs from the first
run's processed-count 0: the claimed equality `skipped₂ = processed₁`
fails (it omits the first run's own skips). -/
theorem c1_idempotence_cex :
    run [⟨"a", "1"⟩] (keysOf [⟨"a", "9", "z"⟩]) (fun _ => .success "x" (some 1))
      (fun _ => true) 0 none [⟨"a", "9", "z"⟩] =
      .finished ⟨[⟨"a", "9", "z"⟩], [0], [], [], 0, 1, 0⟩ ∧
    run [⟨"a", "1"⟩]
      (keysOf (⟨[⟨"a", "9", "z"⟩], [0], [], [], 0, 1, 0⟩ : RunState).output)
      (fun _ => .success "x" (some 1)) (fun _ => true) 0 none
      (⟨[⟨"a", "9", "z"⟩], [0], [], [], 0, 1, 0⟩ : RunState).output =
      .finished ⟨[⟨"a", "9", "z"⟩], [0], [], [], 0, 1, 0⟩ ∧
    (⟨[⟨"a", "9", "z"⟩], [0], [], [], 0, 1, 0⟩ : RunState).skipped ≠
      (⟨[⟨"a", "9", "z"⟩], [0], [], [], 0, 1, 0⟩ : RunState).processed :=
  ⟨by decide, by decide, by decide⟩

/-- C1 amended: if a first run over source `df`, a range, an intact sink
(initial rows `rows0`, all appends succeeding, completed keys derived from
the sink) finishes, then a second run over the sink it left — with
completed keys again derived from that sink — finishes having skipped
every range index: it leaves the sink's row list unchanged, makes no
remote call and appends nothing (for any remote behavior and any append
oracle), and its skipped-count equals the first run's processed-count
plus the first run's skipped-count (the size of the effective range);
the originally claimed `skipped₂ = processed₁` is the special case of a
first run that skipped nothing. -/
theorem c1_second_run_noop (df : List SourceRow) (remote remote2 : Nat → RemoteOutcome)
    (appendOk2 : Nat → Bool) (start : Nat) (endOpt : Option Nat)
    (rows0 : List OutRow) (st1 : RunState)
    (h1 : run df (keysOf rows0) remote (fun _ => true) start endOpt rows0 = .finished st1) :
    ∃ st2, run df (keysOf st1.output) remote2 appendOk2 start endOpt st1.output =
        .finished st2 ∧
      st2.output = st1.output ∧ st2.calls = [] ∧ st2.appends = [] ∧
      st2.processed = 0 ∧ st2.skipped = st1.processed + st1.skipped := by
  have hcov : ∀ i ∈ effRange start endOpt df.length,
      (dfRow df i).context ∈ keysOf st1.output := by
    intro i hi
    rcases runFrom_finished_covered df (keysOf rows0) remote (fun _ => true) st1
      (fun _ => rfl) _ _ h1 i hi with hL | hR
    · obtain ⟨tail, htail⟩ := runFrom_output_extend df (keysOf rows0) remote (fun _ => true)
        (effRange start endOpt df.length) (initState rows0)
      have h1' : runFrom df (keysOf rows0) remote (fun _ => true)
          (effRange start endOpt df.length) (initState rows0) = .finished st1 := h1
      rw [h1'] at htail
      simp only [resultState] at htail
      rw [htail, keysOf_append]
      exact List.mem_append_left _ (by simpa [initState, keysOf] using hL)
    · exact hR
  refine ⟨_, runFrom_all_skip df (keysOf st1.output) remote2 appendOk2 _
      (initState st1.output) hcov, rfl, rfl, rfl, rfl, ?_⟩
  obtain ⟨_, h2, h3, _, _, _⟩ :=
    runFrom_finished_shape df (keysOf rows0) remote (fun _ => true) st1 _ _ h1
  have hsplit := countP_bool_split
    (fun i => decide ((dfRow df i).context ∈ keysOf rows0))
    (effRange start endOpt df.length)
  simp only [initState] at h2 h3 ⊢
  omega

theorem c1_second_run_noop_witness :
    ∃ st2, run [⟨"a", "1"⟩]
        (keysOf (⟨[⟨"a", "1", "x"⟩], [0], [0], [0], 1, 0, 2⟩ : RunState).output)
        (fun _ => RemoteOutcome.error "boom") (fun _ => false) 0 none
        (⟨[⟨"a", "1", "x"⟩], [0], [0], [0], 1, 0, 2⟩ : RunState).output =
        .finished st2 ∧
      st2.output = (⟨[⟨"a", "1", "x"⟩], [0], [0], [0], 1, 0, 2⟩ : RunState).output ∧
      st2.calls = [] ∧ st2.appends = [] ∧ st2.processed = 0 ∧
      st2.skipped = (⟨[⟨"a", "1", "x"⟩], [0], [0], [0], 1, 0, 2⟩ : RunState).processed +
        (⟨[⟨"a", "1", "x"⟩], [0], [0], [0], 1, 0, 2⟩ : RunState).skipped :=
  c1_second_run_noop [⟨"a", "1"⟩] (fun _ => .success "x" (some 2))
    (fun _ => .error "boom") (fun _ => false) 0 none []
    ⟨[⟨"a", "1", "x"⟩], [0], [0], [0], 1, 0, 2⟩ (by decide)

end GT
